import Mathlib

/-!
Verification of the geometric core of InfraGeoCalc.

Shallow embedding of `src/geometry.c` (convex hull via Graham's scan with a
chunked parallel pre-sort, polygon area, path length) together with proofs of
the specification claims.

Modelling conventions:
* Coordinates are exact rationals.  The C code computes with 32-bit floats;
  the fixed tolerance `EPSILON = 1e-6` of the comparators is carried over
  literally as the rational `1/1000000`.
* `sqrtf` occurs in two places.  In the polar comparator only the *order* of
  two square roots of nonnegative numbers matters, so the comparison is
  modelled by the equivalent comparison of squared distances.  The perimeter
  genuinely sums square roots and is modelled over the reals with `Real.sqrt`.
* `qsort` is modelled by an insertion sort driven by the comparator.  The C
  standard requires the comparator passed to `qsort` to induce a consistent
  total ordering of the elements; theorems whose truth depends on the order
  of "tied" elements carry that requirement as an explicit hypothesis.
* The per-chunk thread sorts write to pairwise disjoint slices and are joined
  before the final sort, so their effect equals the sequential composition of
  the chunk sorts, which is how they are modelled.
* The C `count` field of a `PointSet` always equals the number of stored
  points and is modelled by the length of the point list.  `malloc` failures
  are outside the model.
-/

namespace InfraGeoCalc

/-- A 2D/3D point (`Point` in geometry.h): three coordinates. -/
structure Point where
  x : ℚ
  y : ℚ
  z : ℚ
deriving DecidableEq, Repr

/-- A set of points (`PointSet` in geometry.h): the owned array of points and
the dimensionality flag. -/
structure PointSet where
  points : List Point
  is_3d : Bool
deriving DecidableEq, Repr

/-- `EPSILON` from geometry.c line 9: tolerance of the float comparisons. -/
def EPSILON : ℚ := 1 / 1000000

/-- `cross_product` from geometry.c line 54: 2D cross product of `o→a` and
`o→b`; the z coordinate is ignored. -/
def cross_product (o a b : Point) : ℚ :=
  (a.x - o.x) * (b.y - o.y) - (a.y - o.y) * (b.x - o.x)

/-- Squared Euclidean 3D distance: `compute_distance` returns its square
root, `dx*dx + dy*dy + dz*dz` under `sqrtf`. -/
def dist2 (a b : Point) : ℚ :=
  (a.x - b.x) * (a.x - b.x) + (a.y - b.y) * (a.y - b.y) + (a.z - b.z) * (a.z - b.z)

/-- `compute_distance` from geometry.c line 36: Euclidean distance in
3-space (`dz = 0` for 2D data). -/
noncomputable def compute_distance (a b : Point) : ℝ :=
  Real.sqrt ((dist2 a b : ℚ) : ℝ)

/-- `is_collinear` from geometry.c line 48: true iff the absolute cross
product is below `EPSILON`. -/
def is_collinear (a b c : Point) : Bool :=
  decide (|cross_product a b c| < EPSILON)

/-- `compare_polar` from geometry.c line 59.  Returns -1 when `a` sorts
before `b` around the pivot, otherwise 1 (the comparator never returns 0).
The collinear tie-break compares `compute_distance pivot a` with
`compute_distance pivot b`; since both are square roots of nonnegative
numbers this equals the comparison of the squared distances. -/
def compare_polar (piv a b : Point) : Int :=
  if |cross_product piv a b| < EPSILON then
    (if dist2 piv a < dist2 piv b then -1 else 1)
  else
    (if 0 < cross_product piv a b then -1 else 1)

/-- The strict "sorts before" ordering induced by `compare_polar`. -/
def polarLt (piv a b : Point) : Bool :=
  decide (compare_polar piv a b < 0)

/-- The strict improvement test of the pivot scan, geometry.c lines 94-95:
`q` replaces the current best `p` iff `q.y < p.y` or `q.y == p.y` and
`q.x < p.x`. -/
def better (q p : Point) : Prop :=
  q.y < p.y ∨ (q.y = p.y ∧ q.x < p.x)

instance (q p : Point) : Decidable (better q p) := by
  unfold better; infer_instance

/-- The pivot-search loop of geometry.c lines 92-98: running minimum with
index, scanning the remaining points. -/
def pivotAux : Nat × Point → Nat → List Point → Nat × Point
  | best, _, [] => best
  | (bi, bp), i, q :: rest =>
    if better q bp then pivotAux (i, q) (i + 1) rest
    else pivotAux (bi, bp) (i + 1) rest

/-- Pivot selection over a nonempty list given as head and tail. -/
def pivotSel (p : Point) (rest : List Point) : Nat × Point :=
  pivotAux (0, p) 1 rest

/-- The swap of geometry.c lines 99-101: exchange slots 0 and `i`. -/
def swapFront (ps : List Point) (i : Nat) : List Point :=
  match ps with
  | [] => []
  | p :: rest =>
    if i = 0 then p :: rest
    else rest.getD (i - 1) p :: rest.set (i - 1) p

/-- Select the pivot and move it to the front; returns the pivot and the
remaining working array (geometry.c lines 91-102). -/
def pivotSplit (l : List Point) : Point × List Point :=
  match l with
  | [] => (⟨0, 0, 0⟩, [])
  | p :: rest =>
    match swapFront (p :: rest) (pivotSel p rest).1 with
    | [] => (p, [])
    | piv :: work => (piv, work)

/-- Chunk sizes of the parallel sort stage, geometry.c lines 108-118:
`remaining / T` per chunk, with the first `remaining % T` chunks getting one
extra element. -/
def chunkSizes (remaining T : Nat) : List Nat :=
  (List.range T).map (fun i => remaining / T + if i < remaining % T then 1 else 0)

/-- Insertion into a sorted list, keeping earlier elements first on ties. -/
def insertP {α : Type} (lt : α → α → Bool) (x : α) : List α → List α
  | [] => [x]
  | y :: ys => if lt x y then x :: y :: ys else y :: insertP lt x ys

/-- The model of `qsort` with comparator `lt`: insertion sort. -/
def isort {α : Type} (lt : α → α → Bool) (l : List α) : List α :=
  l.foldr (insertP lt) []

/-- The chunked pre-sort (geometry.c lines 104-123): each chunk of the given
sizes is sorted in place; chunks are disjoint, so the parallel execution
equals this sequential composition. -/
def chunkedSort {α : Type} (lt : α → α → Bool) : List Nat → List α → List α
  | [], l => l
  | s :: ss, l => isort lt (l.take s) ++ chunkedSort lt ss (l.drop s)

/-- The popping loop of geometry.c lines 151-155 on the hull stack (stored
top-first): while at least two points remain and the last two together with
the candidate do not make a strict left turn, pop. -/
def popWhile (p : Point) : List Point → List Point
  | a :: b :: rest =>
    if cross_product b a p ≤ 0 then popWhile p (b :: rest) else a :: b :: rest
  | l => l

/-- The sweep of geometry.c lines 150-157: process each remaining sorted
point, popping then pushing. -/
def sweep : List Point → List Point → List Point
  | stack, [] => stack
  | stack, p :: ps => sweep (p :: popWhile p stack) ps

/-- `compute_convex_hull` from geometry.c lines 76-162.  Fails (`none`) when
fewer than 3 points are supplied; clamps the thread count to at least 1;
copies the points, moves the lex-min (y, then x) point to the front, sorts
the rest by polar angle (chunked pre-sort, then one full sort), seeds the
hull with the first three points and sweeps the rest.  The `count == 2`
short-circuit of line 144 is reproduced verbatim (it is unreachable because
of the `count < 3` guard). -/
def compute_convex_hull (set : PointSet) (num_threads : Int) : Option PointSet :=
  if set.points.length < 3 then none
  else
    match pivotSplit set.points with
    | (piv, work) =>
      let T : Nat := (max num_threads 1).toNat
      match isort (polarLt piv) (chunkedSort (polarLt piv) (chunkSizes work.length T) work) with
      | p1 :: p2 :: tl =>
        if set.points.length = 2 then some ⟨[piv, p1], set.is_3d⟩
        else some ⟨(sweep [p2, p1, piv] tl).reverse, set.is_3d⟩
      | [p1] =>
        if set.points.length = 2 then some ⟨[piv, p1], set.is_3d⟩ else none
      | [] => none

/-- Variant of `compute_convex_hull` with the chunked pre-sort skipped
(sorting the working array once with the same comparator).  This is the
reference point of the redundancy claim of the spec, §4.2 step 5: "an
implementation may choose to skip it entirely and still be behaviorally
identical". -/
def compute_convex_hull_nopresort (set : PointSet) : Option PointSet :=
  if set.points.length < 3 then none
  else
    match pivotSplit set.points with
    | (piv, work) =>
      match isort (polarLt piv) work with
      | p1 :: p2 :: tl =>
        if set.points.length = 2 then some ⟨[piv, p1], set.is_3d⟩
        else some ⟨(sweep [p2, p1, piv] tl).reverse, set.is_3d⟩
      | [p1] =>
        if set.points.length = 2 then some ⟨[piv, p1], set.is_3d⟩ else none
      | [] => none

/-- Consecutive pairs around the closed polygon: `(p_i, p_{(i+1) mod n})`,
as produced by the index arithmetic `j = (i + 1) % count` of geometry.c. -/
def cyclicPairs (l : List Point) : List (Point × Point) :=
  l.zip (l.drop 1 ++ l.take 1)

/-- `compute_area` from geometry.c lines 169-179: shoelace formula; sentinel
-1 for fewer than 3 points. -/
def compute_area (hull : PointSet) : ℚ :=
  if hull.points.length < 3 then -1
  else |((cyclicPairs hull.points).map (fun pq => pq.1.x * pq.2.y - pq.2.x * pq.1.y)).sum| / 2

/-- `compute_path_length` from geometry.c lines 186-195: perimeter as the
sum of consecutive 3D distances; sentinel -1 for fewer than 2 points. -/
noncomputable def compute_path_length (hull : PointSet) : ℝ :=
  if hull.points.length < 2 then -1
  else ((cyclicPairs hull.points).map (fun pq => compute_distance pq.1 pq.2)).sum

/-- `v` lies strictly between `u` and `w` on the segment from `u` to `w`
(in the x-y plane): collinear, and the turn at `v` goes forward. -/
def Between (u v w : Point) : Prop :=
  cross_product u v w = 0 ∧ 0 < (v.x - u.x) * (w.x - v.x) + (v.y - u.y) * (w.y - v.y)

instance (u v w : Point) : Decidable (Between u v w) := by
  unfold Between; infer_instance

/-! ### Generic facts about the sort model -/

theorem insertP_perm {α : Type} (lt : α → α → Bool) (x : α) :
    ∀ l : List α, (insertP lt x l).Perm (x :: l)
  | [] => List.Perm.refl _
  | y :: ys => by
    unfold insertP
    by_cases h : lt x y = true
    · rw [if_pos h]
    · rw [if_neg h]
      exact ((insertP_perm lt x ys).cons y).trans (List.Perm.swap x y ys)

theorem isort_perm {α : Type} (lt : α → α → Bool) :
    ∀ l : List α, (isort lt l).Perm l
  | [] => List.Perm.refl _
  | a :: l => (insertP_perm lt a (isort lt l)).trans ((isort_perm lt l).cons a)

theorem isort_length {α : Type} (lt : α → α → Bool) (l : List α) :
    (isort lt l).length = l.length :=
  (isort_perm lt l).length_eq

theorem chunkedSort_perm {α : Type} (lt : α → α → Bool) :
    ∀ (ss : List Nat) (l : List α), (chunkedSort lt ss l).Perm l
  | [], l => List.Perm.refl l
  | s :: ss, l => by
    unfold chunkedSort
    have h := (isort_perm lt (l.take s)).append (chunkedSort_perm lt ss (l.drop s))
    exact h.trans (by rw [List.take_append_drop])

theorem insertP_pairwise {α : Type} (lt : α → α → Bool)
    (asym : ∀ a b : α, lt a b = true → lt b a = false) (x : α) :
    ∀ l : List α,
      (∀ a ∈ x :: l, ∀ b ∈ x :: l, ∀ c ∈ x :: l,
        lt b a = false → lt c b = false → lt c a = false) →
      l.Pairwise (fun a b => lt b a = false) →
      (insertP lt x l).Pairwise (fun a b => lt b a = false)
  | [], _, _ => by simp [insertP]
  | y :: ys, htr, hs => by
    rw [List.pairwise_cons] at hs
    unfold insertP
    by_cases h : lt x y = true
    · rw [if_pos h]
      refine List.Pairwise.cons ?_ (List.Pairwise.cons hs.1 hs.2)
      intro b hb
      rcases List.mem_cons.mp hb with hb | hb
      · rw [hb]; exact asym x y h
      · exact htr x (by simp) y (by simp) b (by simp [hb]) (asym x y h) (hs.1 b hb)
    · rw [if_neg h]
      have hm : ∀ s, s ∈ x :: ys → s ∈ x :: y :: ys := by
        intro s hsm
        rcases List.mem_cons.mp hsm with h' | h'
        · simp [h']
        · simp [h']
      refine List.Pairwise.cons ?_ ?_
      · intro b hb
        have hb' := (insertP_perm lt x ys).mem_iff.mp hb
        rcases List.mem_cons.mp hb' with hb' | hb'
        · subst hb'
          simpa using h
        · exact hs.1 b hb'
      · refine insertP_pairwise lt asym x ys ?_ hs.2
        intro a ha b hb c hc
        exact htr a (hm a ha) b (hm b hb) c (hm c hc)

theorem isort_pairwise {α : Type} (lt : α → α → Bool)
    (asym : ∀ a b : α, lt a b = true → lt b a = false) :
    ∀ l : List α,
      (∀ a ∈ l, ∀ b ∈ l, ∀ c ∈ l, lt b a = false → lt c b = false → lt c a = false) →
      (isort lt l).Pairwise (fun a b => lt b a = false)
  | [], _ => by simp [isort]
  | a :: l, htr => by
    show (insertP lt a (isort lt l)).Pairwise _
    have hmem : ∀ b ∈ isort lt l, b ∈ l := fun b hb => (isort_perm lt l).mem_iff.mp hb
    refine insertP_pairwise lt asym a (isort lt l) ?_ ?_
    · intro u hu v hv w hw
      have hm : ∀ s, s ∈ a :: isort lt l → s ∈ a :: l := by
        intro s hs
        rcases List.mem_cons.mp hs with hs | hs
        · simp [hs]
        · simp [hmem s hs]
      exact htr u (hm u hu) v (hm v hv) w (hm w hw)
    · refine isort_pairwise lt asym l ?_
      intro u hu v hv w hw
      exact htr u (by simp [hu]) v (by simp [hv]) w (by simp [hw])

theorem sorted_unique {α : Type} (lt : α → α → Bool) :
    ∀ l₁ l₂ : List α, l₁.Perm l₂ →
      l₁.Pairwise (fun a b => lt b a = false) →
      l₂.Pairwise (fun a b => lt b a = false) →
      (∀ a ∈ l₁, ∀ b ∈ l₁, lt b a = false → lt a b = false → a = b) →
      l₁ = l₂
  | [], l₂, hp, _, _, _ => (hp.nil_eq).symm ▸ rfl
  | a :: t₁, [], hp, _, _, _ => by simpa using hp.length_eq
  | a :: t₁, b :: t₂, hp, hs₁, hs₂, han => by
    rw [List.pairwise_cons] at hs₁ hs₂
    by_cases hab : a = b
    · subst hab
      have := sorted_unique lt t₁ t₂ hp.cons_inv hs₁.2 hs₂.2
        (fun u hu v hv => han u (by simp [hu]) v (by simp [hv]))
      rw [this]
    · exfalso
      have ha2 : a ∈ b :: t₂ := hp.mem_iff.mp (by simp)
      have hat2 : a ∈ t₂ := by
        rcases List.mem_cons.mp ha2 with h | h
        · exact absurd h hab
        · exact h
      have hb1 : b ∈ a :: t₁ := hp.symm.mem_iff.mp (by simp)
      have hbt1 : b ∈ t₁ := by
        rcases List.mem_cons.mp hb1 with h | h
        · exact absurd h.symm hab
        · exact h
      exact hab (han a (by simp) b (by simp [hbt1]) (hs₁.1 b hbt1) (hs₂.1 a hat2))

/-- The final full sort makes the chunked pre-sort redundant, provided the
comparator is consistent (transitive and antisymmetric) on the sorted
elements — the precondition the C standard places on a `qsort` comparator. -/
theorem isort_chunked_eq {α : Type} (lt : α → α → Bool)
    (asym : ∀ a b : α, lt a b = true → lt b a = false) (ss : List Nat) (l : List α)
    (htr : ∀ a ∈ l, ∀ b ∈ l, ∀ c ∈ l, lt b a = false → lt c b = false → lt c a = false)
    (han : ∀ a ∈ l, ∀ b ∈ l, lt b a = false → lt a b = false → a = b) :
    isort lt (chunkedSort lt ss l) = isort lt l := by
  have hcp := chunkedSort_perm lt ss l
  have hmem : ∀ b ∈ chunkedSort lt ss l, b ∈ l := fun b hb => hcp.mem_iff.mp hb
  have hmem₁ : ∀ b ∈ isort lt (chunkedSort lt ss l), b ∈ l := fun b hb =>
    hmem b ((isort_perm lt _).mem_iff.mp hb)
  refine sorted_unique lt _ _ ?_ ?_ ?_ ?_
  · exact ((isort_perm lt _).trans hcp).trans (isort_perm lt l).symm
  · exact isort_pairwise lt asym _
      (fun u hu v hv w hw => htr u (hmem u hu) v (hmem v hv) w (hmem w hw))
  · exact isort_pairwise lt asym _ htr
  · exact fun u hu v hv => han u (hmem₁ u hu) v (hmem₁ v hv)

/-! ### The polar comparator -/

theorem cross_product_swap (o a b : Point) :
    cross_product o b a = -cross_product o a b := by
  unfold cross_product; ring

theorem polarLt_coll {piv a b : Point} (h : |cross_product piv a b| < EPSILON) :
    polarLt piv a b = decide (dist2 piv a < dist2 piv b) := by
  unfold polarLt compare_polar
  rw [if_pos h]
  by_cases hd : dist2 piv a < dist2 piv b
  · simp [hd]
  · simp [hd]

theorem polarLt_ncoll {piv a b : Point} (h : ¬ |cross_product piv a b| < EPSILON) :
    polarLt piv a b = decide (0 < cross_product piv a b) := by
  unfold polarLt compare_polar
  rw [if_neg h]
  by_cases hc : 0 < cross_product piv a b
  · simp [hc]
  · simp [hc]

theorem abs_cross_swap (piv a b : Point) :
    |cross_product piv b a| = |cross_product piv a b| := by
  rw [cross_product_swap, abs_neg]

theorem polarLt_asymm (piv : Point) :
    ∀ a b : Point, polarLt piv a b = true → polarLt piv b a = false := by
  intro a b h
  by_cases hc : |cross_product piv a b| < EPSILON
  · have hc' : |cross_product piv b a| < EPSILON := by rwa [abs_cross_swap]
    rw [polarLt_coll hc] at h
    rw [polarLt_coll hc']
    simp only [decide_eq_true_eq] at h
    simp [not_lt.mpr (le_of_lt h)]
  · have hc' : ¬ |cross_product piv b a| < EPSILON := by rwa [abs_cross_swap]
    rw [polarLt_ncoll hc] at h
    rw [polarLt_ncoll hc']
    simp only [decide_eq_true_eq] at h
    rw [cross_product_swap]
    simp
    linarith

/-! ### The pivot scan -/

theorem better_irrefl (p : Point) : ¬ better p p := by
  unfold better
  simp

theorem better_trans {a b c : Point} (h1 : better a b) (h2 : better b c) : better a c := by
  unfold better at *
  rcases h1 with h1 | ⟨h1e, h1x⟩ <;> rcases h2 with h2 | ⟨h2e, h2x⟩
  · exact Or.inl (h1.trans h2)
  · exact Or.inl (by linarith [h2e])
  · exact Or.inl (by linarith [h1e])
  · exact Or.inr ⟨h1e.trans h2e, h1x.trans h2x⟩

theorem better_asymm {a b : Point} (h : better a b) : ¬ better b a := by
  intro h'
  unfold better at h h'
  rcases h with h | ⟨he, hx⟩ <;> rcases h' with h' | ⟨he', hx'⟩ <;> linarith

theorem not_better_trans {a b c : Point} (h1 : ¬ better a b) (h2 : ¬ better b c) :
    ¬ better a c := by
  unfold better at *
  push_neg at *
  obtain ⟨h1y, h1x⟩ := h1
  obtain ⟨h2y, h2x⟩ := h2
  refine ⟨by linarith, ?_⟩
  intro hey
  have hby : b.y = a.y := by linarith
  have hcy : c.y = b.y := by linarith
  have := h1x hby.symm
  have := h2x hcy.symm
  linarith

theorem pivotAux_cases :
    ∀ (l : List Point) (bi : Nat) (bp : Point) (i : Nat),
      pivotAux (bi, bp) i l = (bi, bp) ∨
      ∃ j, j < l.length ∧ (pivotAux (bi, bp) i l).1 = i + j ∧
        l[j]? = some (pivotAux (bi, bp) i l).2
  | [], bi, bp, i => Or.inl rfl
  | q :: rest, bi, bp, i => by
    unfold pivotAux
    by_cases hb : better q bp
    · rw [if_pos hb]
      rcases pivotAux_cases rest i q (i + 1) with h | ⟨j, hj, h1, h2⟩
      · refine Or.inr ⟨0, by simp, ?_, ?_⟩
        · rw [h]; simp
        · rw [h]; simp
      · refine Or.inr ⟨j + 1, by simpa using Nat.succ_lt_succ hj, ?_, ?_⟩
        · rw [h1]; omega
        · simpa using h2
    · rw [if_neg hb]
      rcases pivotAux_cases rest bi bp (i + 1) with h | ⟨j, hj, h1, h2⟩
      · exact Or.inl h
      · refine Or.inr ⟨j + 1, by simpa using Nat.succ_lt_succ hj, ?_, ?_⟩
        · rw [h1]; omega
        · simpa using h2

theorem pivotAux_min :
    ∀ (l : List Point) (bi : Nat) (bp : Point) (i : Nat) (s : Point),
      s ∈ bp :: l → ¬ better s (pivotAux (bi, bp) i l).2
  | [], bi, bp, i, s, hs => by
    rcases List.mem_cons.mp hs with h | h
    · rw [h]; exact better_irrefl bp
    · simp at h
  | q :: rest, bi, bp, i, s, hs => by
    unfold pivotAux
    by_cases hb : better q bp
    · rw [if_pos hb]
      rcases List.mem_cons.mp hs with h | h
      · rw [h]
        intro hcon
        exact pivotAux_min rest i q (i + 1) q (by simp)
          (better_trans hb hcon)
      · exact pivotAux_min rest i q (i + 1) s h
    · rw [if_neg hb]
      rcases List.mem_cons.mp hs with h | h
      · exact pivotAux_min rest bi bp (i + 1) s (by simp [h])
      · rcases List.mem_cons.mp h with h' | h'
        · rw [h']
          exact not_better_trans hb (pivotAux_min rest bi bp (i + 1) bp (by simp))
        · exact pivotAux_min rest bi bp (i + 1) s (by simp [h'])

theorem swap_perm :
    ∀ (rest : List Point) (j : Nat) (p : Point), j < rest.length →
      (p :: rest).Perm (rest.getD j p :: rest.set j p)
  | [], j, p, hj => by simp at hj
  | x :: xs, 0, p, _ => by
    simpa using List.Perm.swap x p xs
  | x :: xs, j + 1, p, hj => by
    have hj' : j < xs.length := by simpa using Nat.lt_of_succ_lt_succ hj
    have step₁ : (p :: x :: xs).Perm (x :: p :: xs) := List.Perm.swap x p xs
    have step₂ : (x :: p :: xs).Perm (x :: (xs.getD j p :: xs.set j p)) :=
      (swap_perm xs j p hj').cons x
    have step₃ : (x :: (xs.getD j p :: xs.set j p)).Perm (xs.getD j p :: x :: xs.set j p) :=
      List.Perm.swap (xs.getD j p) x (xs.set j p)
    simpa using (step₁.trans step₂).trans step₃

theorem pivotSplit_spec (p : Point) (rest : List Point) :
    ((pivotSplit (p :: rest)).1 :: (pivotSplit (p :: rest)).2).Perm (p :: rest) ∧
    ∀ s ∈ p :: rest, ¬ better s (pivotSplit (p :: rest)).1 := by
  have hmin := pivotAux_min rest 0 p 1
  rcases pivotAux_cases rest 0 p 1 with h | ⟨j, hj, h1, h2⟩
  · have hsel : pivotSel p rest = (0, p) := h
    have hsw : swapFront (p :: rest) (pivotSel p rest).1 = p :: rest := by
      rw [hsel]
      simp [swapFront]
    have hps : pivotSplit (p :: rest) = (p, rest) := by
      simp only [pivotSplit]
      rw [hsw]
    rw [hps]
    refine ⟨List.Perm.refl _, ?_⟩
    intro s hs
    have hm := hmin s hs
    rw [h] at hm
    exact hm
  · have hv : rest.getD j p = (pivotSel p rest).2 := by
      have hj2 : rest[j]? = some (pivotSel p rest).2 := h2
      simp [List.getD, hj2]
    have h1' : (pivotSel p rest).1 = 1 + j := h1
    have hsw : swapFront (p :: rest) (pivotSel p rest).1 =
        rest.getD j p :: rest.set j p := by
      simp only [swapFront]
      rw [h1']
      have hjj : 1 + j - 1 = j := by omega
      rw [if_neg (by omega), hjj]
    have hps : pivotSplit (p :: rest) = (rest.getD j p, rest.set j p) := by
      simp only [pivotSplit]
      rw [hsw]
    rw [hps]
    refine ⟨(swap_perm rest j p hj).symm, ?_⟩
    intro s hs
    rw [hv]
    exact hmin s hs

/-! ### Shape of a successful hull computation -/

theorem cch_body (set : PointSet) (T : Int) (h3 : ¬ set.points.length < 3) :
    compute_convex_hull set T =
      match isort (polarLt (pivotSplit set.points).1)
          (chunkedSort (polarLt (pivotSplit set.points).1)
            (chunkSizes (pivotSplit set.points).2.length (max T 1).toNat)
            (pivotSplit set.points).2) with
      | p1 :: p2 :: tl =>
        if set.points.length = 2 then some ⟨[(pivotSplit set.points).1, p1], set.is_3d⟩
        else some ⟨(sweep [p2, p1, (pivotSplit set.points).1] tl).reverse, set.is_3d⟩
      | [p1] =>
        if set.points.length = 2 then some ⟨[(pivotSplit set.points).1, p1], set.is_3d⟩
        else none
      | [] => none := by
  unfold compute_convex_hull
  rw [if_neg h3]

/-- For an input of at least 3 points the hull computation succeeds, and the
result is the reversed sweep stack over the sorted working array; moreover
pivot and sorted working array together are a permutation of the input. -/
theorem cch_spec (set : PointSet) (T : Int) (h3 : 3 ≤ set.points.length) :
    ∃ p1 p2 tl,
      isort (polarLt (pivotSplit set.points).1)
        (chunkedSort (polarLt (pivotSplit set.points).1)
          (chunkSizes (pivotSplit set.points).2.length (max T 1).toNat)
          (pivotSplit set.points).2) = p1 :: p2 :: tl ∧
      compute_convex_hull set T =
        some ⟨(sweep [p2, p1, (pivotSplit set.points).1] tl).reverse, set.is_3d⟩ ∧
      ((pivotSplit set.points).1 :: p1 :: p2 :: tl).Perm set.points := by
  obtain ⟨p, rest, hpr⟩ : ∃ p rest, set.points = p :: rest := by
    cases hsp : set.points with
    | nil => rw [hsp] at h3; simp at h3
    | cons p rest => exact ⟨p, rest, rfl⟩
  have hperm : ((pivotSplit set.points).1 :: (pivotSplit set.points).2).Perm set.points := by
    rw [hpr]; exact (pivotSplit_spec p rest).1
  have hwlen : (pivotSplit set.points).2.length + 1 = set.points.length := by
    have := hperm.length_eq
    simpa [Nat.add_comm] using this
  have hslen :
      (isort (polarLt (pivotSplit set.points).1)
        (chunkedSort (polarLt (pivotSplit set.points).1)
          (chunkSizes (pivotSplit set.points).2.length (max T 1).toNat)
          (pivotSplit set.points).2)).length = (pivotSplit set.points).2.length := by
    rw [isort_length]
    exact (chunkedSort_perm _ _ _).length_eq
  obtain ⟨p1, p2, tl, hs⟩ :
      ∃ p1 p2 tl,
        isort (polarLt (pivotSplit set.points).1)
          (chunkedSort (polarLt (pivotSplit set.points).1)
            (chunkSizes (pivotSplit set.points).2.length (max T 1).toNat)
            (pivotSplit set.points).2) = p1 :: p2 :: tl := by
    have h2 : 2 ≤ (isort (polarLt (pivotSplit set.points).1)
        (chunkedSort (polarLt (pivotSplit set.points).1)
          (chunkSizes (pivotSplit set.points).2.length (max T 1).toNat)
          (pivotSplit set.points).2)).length := by omega
    match hq : isort (polarLt (pivotSplit set.points).1)
        (chunkedSort (polarLt (pivotSplit set.points).1)
          (chunkSizes (pivotSplit set.points).2.length (max T 1).toNat)
          (pivotSplit set.points).2), h2 with
    | a :: b :: t, _ => exact ⟨a, b, t, rfl⟩
  refine ⟨p1, p2, tl, hs, ?_, ?_⟩
  · rw [cch_body set T (by omega), hs]
    show (if set.points.length = 2 then
        some (PointSet.mk [(pivotSplit set.points).1, p1] set.is_3d)
      else some (PointSet.mk ((sweep [p2, p1, (pivotSplit set.points).1] tl).reverse) set.is_3d)) =
      some (PointSet.mk ((sweep [p2, p1, (pivotSplit set.points).1] tl).reverse) set.is_3d)
    rw [if_neg (by omega : ¬ set.points.length = 2)]
  · have h1 : (p1 :: p2 :: tl).Perm (pivotSplit set.points).2 := by
      rw [← hs]
      exact (isort_perm _ _).trans (chunkedSort_perm _ _ _)
    exact (h1.cons (pivotSplit set.points).1).trans hperm

/-! ### C4: failure exactly below 3 points; thread count clamped -/

/-- C4: `compute_convex_hull` fails exactly when the input has fewer than 3
points (the model has no allocation failures), and a thread count below 1 is
clamped to 1, so it never causes a failure by itself. -/
theorem C4_failure_iff_fewer_than_3 :
    (∀ (set : PointSet) (T : Int),
      compute_convex_hull set T = none ↔ set.points.length < 3) ∧
    (∀ (set : PointSet) (T : Int), T < 1 →
      compute_convex_hull set T = compute_convex_hull set 1) := by
  constructor
  · intro set T
    constructor
    · intro hnone
      by_contra h3
      rcases cch_spec set T (by omega) with ⟨p1, p2, tl, _, heq, _⟩
      rw [heq] at hnone
      cases hnone
    · intro h3
      unfold compute_convex_hull
      rw [if_pos h3]
  · intro set T hT
    unfold compute_convex_hull
    have hmax : max T 1 = max (1 : Int) 1 := by
      rw [max_eq_right (le_of_lt hT), max_self]
    rw [hmax]

/-- Witness for C4 at concrete inputs. -/
theorem C4_witness :
    compute_convex_hull ⟨[⟨0, 0, 0⟩, ⟨1, 0, 0⟩], false⟩ 4 = none ∧
    compute_convex_hull ⟨[⟨0, 0, 0⟩, ⟨1, 0, 0⟩, ⟨0, 1, 0⟩], false⟩ (-3) =
      compute_convex_hull ⟨[⟨0, 0, 0⟩, ⟨1, 0, 0⟩, ⟨0, 1, 0⟩], false⟩ 1 :=
  ⟨(C4_failure_iff_fewer_than_3.1 _ _).mpr (by decide),
   C4_failure_iff_fewer_than_3.2 _ _ (by decide)⟩

/-! ### C10: the dimensionality flag is propagated -/

/-- C10: whenever `compute_convex_hull` returns a hull, its `is_3d` flag
equals the input's flag. -/
theorem C10_is3d_propagated (set : PointSet) (T : Int) (h : PointSet)
    (hs : compute_convex_hull set T = some h) : h.is_3d = set.is_3d := by
  by_cases h3 : set.points.length < 3
  · unfold compute_convex_hull at hs
    rw [if_pos h3] at hs
    cases hs
  · rcases cch_spec set T (by omega) with ⟨p1, p2, tl, _, heq, _⟩
    rw [heq] at hs
    rw [← Option.some.inj hs]

unseal Rat.mul Rat.sub Rat.add Rat.inv in
/-- Witness for C10 at a concrete input. -/
theorem C10_witness :
    (PointSet.mk [⟨0, 0, 0⟩, ⟨4, 0, 0⟩, ⟨0, 3,0⟩] true).is_3d =
      (PointSet.mk [⟨0, 0, 0⟩, ⟨4, 0, 0⟩, ⟨0, 3, 0⟩, ⟨1, 1, 0⟩] true).is_3d :=
  C10_is3d_propagated _ 1 _ (by decide)

/-! ### C6: the 2-point short-circuit -/

unseal Rat.mul Rat.sub Rat.add Rat.inv in
/-- C6 counterexample: a 3-point input produces a 3-point hull, not the
2-point short-circuit result the claim describes.  At a concrete 3-point
input the hull has 3 points, not 2. -/
theorem C6_counterexample :
    compute_convex_hull ⟨[⟨0, 0, 0⟩, ⟨1, 0, 0⟩, ⟨0, 1, 0⟩], false⟩ 1 =
      some ⟨[⟨0, 0, 0⟩, ⟨1, 0, 0⟩, ⟨0, 1, 0⟩], false⟩ ∧
    (PointSet.mk [⟨0, 0, 0⟩, ⟨1, 0, 0⟩, ⟨0, 1, 0⟩] false).points.length ≠ 2 := by
  constructor
  · decide
  · decide

/-- C6 amended: a 3-point input yields a 3-point hull (the sweep loop body
never runs for it), and the `count == 2` short-circuit is unreachable
because 2-point inputs are rejected by the `count < 3` guard. -/
theorem C6_amended :
    (∀ (set : PointSet) (T : Int), set.points.length = 3 →
      ∃ h, compute_convex_hull set T = some h ∧ h.points.length = 3) ∧
    (∀ (set : PointSet) (T : Int), set.points.length = 2 →
      compute_convex_hull set T = none) := by
  constructor
  · intro set T hlen3
    rcases cch_spec set T (by omega) with ⟨p1, p2, tl, _, heq, hperm⟩
    have htl : tl = [] := by
      have hlen := hperm.length_eq
      rw [hlen3] at hlen
      simp only [List.length_cons] at hlen
      exact List.length_eq_zero.mp (by omega)
    subst htl
    refine ⟨_, heq, ?_⟩
    simp [sweep]
  · intro set T hlen2
    unfold compute_convex_hull
    rw [if_pos (by omega)]

/-- Witness for the amended C6 at concrete inputs. -/
theorem C6_amended_witness :
    (∃ h, compute_convex_hull ⟨[⟨0, 0, 0⟩, ⟨2, 1, 0⟩, ⟨1, 5, 0⟩], false⟩ 7 = some h ∧
      h.points.length = 3) ∧
    compute_convex_hull ⟨[⟨0, 0, 0⟩, ⟨2, 1, 0⟩], false⟩ 7 = none :=
  ⟨C6_amended.1 _ _ (by decide), C6_amended.2 _ _ (by decide)⟩

/-! ### C3: thread-count invariance, redundancy of the chunked pre-sort -/

theorem cch_nopre_body (set : PointSet) (h3 : ¬ set.points.length < 3) :
    compute_convex_hull_nopresort set =
      match isort (polarLt (pivotSplit set.points).1) (pivotSplit set.points).2 with
      | p1 :: p2 :: tl =>
        if set.points.length = 2 then some ⟨[(pivotSplit set.points).1, p1], set.is_3d⟩
        else some ⟨(sweep [p2, p1, (pivotSplit set.points).1] tl).reverse, set.is_3d⟩
      | [p1] =>
        if set.points.length = 2 then some ⟨[(pivotSplit set.points).1, p1], set.is_3d⟩
        else none
      | [] => none := by
  unfold compute_convex_hull_nopresort
  rw [if_neg h3]

/-- C3: for a fixed input, the hull is identical for every requested thread
count, and equals the result of the variant that skips the chunked pre-sort
entirely: the final full sort re-establishes the global order.  The
hypotheses state that the polar comparator is consistent (transitive and
antisymmetric) on the working array — exactly the total-ordering
precondition the C standard places on a `qsort` comparator; the epsilon
tie-breaking can violate it on contrived inputs, and `qsort` has no defined
behaviour there. -/
theorem C3_thread_invariance (set : PointSet)
    (htr : ∀ a ∈ (pivotSplit set.points).2, ∀ b ∈ (pivotSplit set.points).2,
      ∀ c ∈ (pivotSplit set.points).2,
      polarLt (pivotSplit set.points).1 b a = false →
      polarLt (pivotSplit set.points).1 c b = false →
      polarLt (pivotSplit set.points).1 c a = false)
    (han : ∀ a ∈ (pivotSplit set.points).2, ∀ b ∈ (pivotSplit set.points).2,
      polarLt (pivotSplit set.points).1 b a = false →
      polarLt (pivotSplit set.points).1 a b = false → a = b) :
    (∀ T : Int, compute_convex_hull set T = compute_convex_hull_nopresort set) ∧
    (∀ T₁ T₂ : Int, compute_convex_hull set T₁ = compute_convex_hull set T₂) := by
  have key : ∀ T : Int, compute_convex_hull set T = compute_convex_hull_nopresort set := by
    intro T
    by_cases h3 : set.points.length < 3
    · unfold compute_convex_hull compute_convex_hull_nopresort
      rw [if_pos h3, if_pos h3]
    · rw [cch_body set T h3, cch_nopre_body set h3]
      rw [isort_chunked_eq _ (polarLt_asymm _) _ _ htr han]
  exact ⟨key, fun T₁ T₂ => (key T₁).trans (key T₂).symm⟩

unseal Rat.mul Rat.sub Rat.add Rat.inv in
/-- Witness for C3 at a concrete input and thread count. -/
theorem C3_witness :
    compute_convex_hull ⟨[⟨0, 0, 0⟩, ⟨4, 0, 0⟩, ⟨0, 3, 0⟩, ⟨1, 1, 0⟩], false⟩ 3 =
      compute_convex_hull_nopresort ⟨[⟨0, 0, 0⟩, ⟨4, 0, 0⟩, ⟨0, 3, 0⟩, ⟨1, 1, 0⟩], false⟩ :=
  (C3_thread_invariance _ (by decide) (by decide)).1 3

/-! ### C5: collinear boundary points -/

unseal Rat.mul Rat.sub Rat.add Rat.inv in
/-- C5 counterexample: for the input {(0,0),(1,0),(2,0),(1,1)} the returned
hull is [(0,0),(1,0),(2,0),(1,1)], and its vertex (1,0) lies strictly
between the hull vertices (0,0) and (2,0) on the bottom boundary edge: the
two smallest-angle points are collinear with the pivot, are seeded into the
hull unchecked, and no later candidate pops the nearer one. -/
theorem C5_counterexample :
    compute_convex_hull ⟨[⟨0, 0, 0⟩, ⟨1, 0, 0⟩, ⟨2, 0, 0⟩, ⟨1, 1, 0⟩], false⟩ 1 =
      some ⟨[⟨0, 0, 0⟩, ⟨1, 0, 0⟩, ⟨2, 0, 0⟩, ⟨1, 1, 0⟩], false⟩ ∧
    (⟨1, 0, 0⟩ : Point) ∈ [⟨0, 0, 0⟩, ⟨1, 0, 0⟩, ⟨2, 0, 0⟩, (⟨1, 1, 0⟩ : Point)] ∧
    (⟨0, 0, 0⟩ : Point) ∈ [⟨0, 0, 0⟩, ⟨1, 0, 0⟩, ⟨2, 0, 0⟩, (⟨1, 1, 0⟩ : Point)] ∧
    (⟨2, 0, 0⟩ : Point) ∈ [⟨0, 0, 0⟩, ⟨1, 0, 0⟩, ⟨2, 0, 0⟩, (⟨1, 1, 0⟩ : Point)] ∧
    Between ⟨0, 0, 0⟩ ⟨1, 0, 0⟩ ⟨2, 0, 0⟩ :=
  ⟨by decide, by decide, by decide, by decide, by decide⟩

/-- All consecutive vertex triples of the stack except the bottom one turn
strictly left; positions are counted from the top of the stack, so the
excluded bottom triple is the one touching position `length - 1`. -/
def StackOK (s : List Point) : Prop :=
  ∀ (k : Nat) (a b c : Point), k + 4 ≤ s.length →
    s[k]? = some a → s[k + 1]? = some b → s[k + 2]? = some c →
    0 < cross_product c b a

theorem popWhile_suffix (p : Point) : ∀ s : List Point, (popWhile p s).IsSuffix s
  | [] => List.suffix_refl _
  | [a] => List.suffix_refl _
  | a :: b :: r => by
    unfold popWhile
    by_cases h : cross_product b a p ≤ 0
    · rw [if_pos h]
      exact (popWhile_suffix p (b :: r)).trans (List.suffix_cons a (b :: r))
    · rw [if_neg h]

theorem popWhile_stop (p : Point) :
    ∀ (s : List Point) (a b : Point) (r : List Point),
      popWhile p s = a :: b :: r → 0 < cross_product b a p
  | [], a, b, r, h => by simp [popWhile] at h
  | [x], a, b, r, h => by
    simp only [popWhile] at h
    cases h
  | x :: y :: s, a, b, r, h => by
    unfold popWhile at h
    by_cases hc : cross_product y x p ≤ 0
    · rw [if_pos hc] at h
      exact popWhile_stop p (y :: s) a b r h
    · rw [if_neg hc] at h
      simp only [List.cons.injEq] at h
      obtain ⟨rfl, rfl, -⟩ := h
      exact not_le.mp hc

theorem stackOK_suffix {s' s : List Point} (hsfx : s'.IsSuffix s) (hg : StackOK s) :
    StackOK s' := by
  obtain ⟨u, rfl⟩ := hsfx
  intro k a b c hk h0 h1 h2
  refine hg (k + u.length) a b c (by rw [List.length_append]; omega) ?_ ?_ ?_
  · rw [List.getElem?_append_right (by omega), Nat.add_sub_cancel]
    exact h0
  · have he : k + u.length + 1 = k + 1 + u.length := by omega
    rw [he, List.getElem?_append_right (by omega), Nat.add_sub_cancel]
    exact h1
  · have he : k + u.length + 2 = k + 2 + u.length := by omega
    rw [he, List.getElem?_append_right (by omega), Nat.add_sub_cancel]
    exact h2

theorem stackOK_push (p : Point) (s : List Point) (hg : StackOK s)
    (hstop : ∀ a b r, s = a :: b :: r → 0 < cross_product b a p) :
    StackOK (p :: s) := by
  intro k a b c hk h0 h1 h2
  cases k with
  | zero =>
    rw [List.getElem?_cons_zero] at h0
    rw [List.getElem?_cons_succ] at h1 h2
    injection h0 with h0
    subst h0
    cases s with
    | nil => simp at h1
    | cons x s' =>
      cases s' with
      | nil => simp at h2
      | cons y r =>
        rw [List.getElem?_cons_zero] at h1
        rw [List.getElem?_cons_succ, List.getElem?_cons_zero] at h2
        injection h1 with h1
        subst h1
        injection h2 with h2
        subst h2
        exact hstop x y r rfl
  | succ k' =>
    rw [List.getElem?_cons_succ] at h0 h1 h2
    refine hg k' a b c ?_ h0 h1 h2
    simp only [List.length_cons] at hk
    omega

theorem sweep_stackOK : ∀ (ps s : List Point), StackOK s → StackOK (sweep s ps)
  | [], _, hg => hg
  | p :: ps, s, hg =>
    sweep_stackOK ps (p :: popWhile p s)
      (stackOK_push p (popWhile p s) (stackOK_suffix (popWhile_suffix p s) hg)
        (fun a b r h => popWhile_stop p s a b r h))

/-- C5 amended: in every returned hull, each consecutive vertex triple
except the first one turns strictly left (positive orientation); the first
triple — the pivot and the two smallest-angle sorted points, which are
seeded into the hull without a check — may be collinear, as the
counterexample shows. -/
theorem C5_amended (set : PointSet) (T : Int) (h : PointSet)
    (hs : compute_convex_hull set T = some h) :
    ∀ (i : Nat) (a b c : Point), 1 ≤ i →
      h.points[i]? = some a → h.points[i + 1]? = some b → h.points[i + 2]? = some c →
      0 < cross_product a b c := by
  by_cases h3 : set.points.length < 3
  · unfold compute_convex_hull at hs
    rw [if_pos h3] at hs
    cases hs
  · rcases cch_spec set T (by omega) with ⟨p1, p2, tl, _, heq, _⟩
    rw [heq] at hs
    have hpts : h.points = (sweep [p2, p1, (pivotSplit set.points).1] tl).reverse :=
      congrArg PointSet.points (Option.some.inj hs).symm
    intro i a b c hi h0 h1 h2
    rw [hpts] at h0 h1 h2
    set s := sweep [p2, p1, (pivotSplit set.points).1] tl with hsdef
    have hOK : StackOK s := by
      refine sweep_stackOK tl _ ?_
      intro k a' b' c' hk _ _ _
      simp only [List.length_cons, List.length_nil] at hk
      omega
    have hb2 : i + 2 < s.reverse.length := (List.getElem?_eq_some.mp h2).1
    have hn2 : i + 2 < s.length := by simpa using hb2
    have hn1 : i + 1 < s.length := by omega
    have hn0 : i < s.length := by omega
    rw [List.getElem?_reverse hn0] at h0
    rw [List.getElem?_reverse hn1] at h1
    rw [List.getElem?_reverse hn2] at h2
    have e0 : s.length - 1 - i = (s.length - 3 - i) + 2 := by omega
    have e1 : s.length - 1 - (i + 1) = (s.length - 3 - i) + 1 := by omega
    have e2 : s.length - 1 - (i + 2) = s.length - 3 - i := by omega
    rw [e0] at h0
    rw [e1] at h1
    rw [e2] at h2
    exact hOK (s.length - 3 - i) c b a (by omega) h2 h1 h0

unseal Rat.mul Rat.sub Rat.add Rat.inv in
/-- Witness for the amended C5: the square {(0,0),(4,0),(4,3),(0,3)} gives a
4-vertex hull whose second consecutive triple turns strictly left. -/
theorem C5_amended_witness : 0 < cross_product ⟨4, 0, 0⟩ ⟨4, 3, 0⟩ ⟨0, 3, 0⟩ :=
  C5_amended ⟨[⟨0, 0, 0⟩, ⟨4, 0, 0⟩, ⟨4, 3, 0⟩, ⟨0, 3, 0⟩], false⟩ 1
    ⟨[⟨0, 0, 0⟩, ⟨4, 0, 0⟩, ⟨4, 3, 0⟩, ⟨0, 3, 0⟩], false⟩ (by decide)
    1 ⟨4, 0, 0⟩ ⟨4, 3, 0⟩ ⟨0, 3, 0⟩ (by decide) (by decide) (by decide) (by decide)

/-! ### C2: the concrete scenario {(0,0),(4,0),(0,3),(1,1)} -/

theorem compute_area_flag (l : List Point) (f g : Bool) :
    compute_area ⟨l, f⟩ = compute_area ⟨l, g⟩ := rfl

theorem compute_path_length_flag (l : List Point) (f g : Bool) :
    compute_path_length ⟨l, f⟩ = compute_path_length ⟨l, g⟩ := rfl

theorem pivotSplit_spec2 (l : List Point) (hne : l ≠ []) :
    ((pivotSplit l).1 :: (pivotSplit l).2).Perm l ∧
    ∀ s ∈ l, ¬ better s (pivotSplit l).1 := by
  cases l with
  | nil => exact absurd rfl hne
  | cons p rest => exact pivotSplit_spec p rest

unseal Rat.mul Rat.sub Rat.add Rat.inv in
/-- C2: for the points {(0,0),(4,0),(0,3),(1,1)} in any input order and with
any requested thread count ≥ 1, the hull is [(0,0),(4,0),(0,3)] — the
interior point (1,1) is excluded — the area of that hull is 6 and its
perimeter is 12. -/
theorem C2_concrete_scenario (S : PointSet) (T : Int)
    (hperm : S.points.Perm [⟨0, 0, 0⟩, ⟨4, 0, 0⟩, ⟨0, 3, 0⟩, ⟨1, 1, 0⟩])
    (_hT : 1 ≤ T) :
    compute_convex_hull S T = some ⟨[⟨0, 0, 0⟩, ⟨4, 0, 0⟩, ⟨0, 3, 0⟩], S.is_3d⟩ ∧
    compute_area ⟨[⟨0, 0, 0⟩, ⟨4, 0, 0⟩, ⟨0, 3, 0⟩], S.is_3d⟩ = 6 ∧
    compute_path_length ⟨[⟨0, 0, 0⟩, ⟨4, 0, 0⟩, ⟨0, 3, 0⟩], S.is_3d⟩ = 12 := by
  have hlen : S.points.length = 4 := by rw [hperm.length_eq]; rfl
  obtain ⟨hsplit, hmin⟩ := pivotSplit_spec2 S.points (by
    intro hnil; rw [hnil] at hlen; cases hlen)
  have hpivmem : (pivotSplit S.points).1 ∈
      [⟨0, 0, 0⟩, ⟨4, 0, 0⟩, ⟨0, 3, 0⟩, (⟨1, 1, 0⟩ : Point)] :=
    hperm.mem_iff.mp (hsplit.mem_iff.mp (List.mem_cons_self _ _))
  have hAmem : (⟨0, 0, 0⟩ : Point) ∈ S.points := hperm.mem_iff.mpr (by simp)
  have hminA := hmin _ hAmem
  have hpiv : (pivotSplit S.points).1 = ⟨0, 0, 0⟩ := by
    rcases List.mem_cons.mp hpivmem with h | h
    · exact h
    rcases List.mem_cons.mp h with h | h
    · exact absurd (h ▸ (by decide : better ⟨0, 0, 0⟩ ⟨4, 0, 0⟩)) hminA
    rcases List.mem_cons.mp h with h | h
    · exact absurd (h ▸ (by decide : better ⟨0, 0, 0⟩ ⟨0, 3, 0⟩)) hminA
    rcases List.mem_cons.mp h with h | h
    · exact absurd (h ▸ (by decide : better ⟨0, 0, 0⟩ ⟨1, 1, 0⟩)) hminA
    · simp at h
  have hwork : (pivotSplit S.points).2.Perm [⟨4, 0, 0⟩, ⟨0, 3, 0⟩, ⟨1, 1, 0⟩] := by
    have h1 : ((pivotSplit S.points).1 :: (pivotSplit S.points).2).Perm
        ((⟨0, 0, 0⟩ : Point) :: [⟨4, 0, 0⟩, ⟨0, 3, 0⟩, ⟨1, 1, 0⟩]) := hsplit.trans hperm
    rw [hpiv] at h1
    exact h1.cons_inv
  have hwmem : ∀ a ∈ (pivotSplit S.points).2,
      a ∈ [⟨4, 0, 0⟩, ⟨0, 3, 0⟩, (⟨1, 1, 0⟩ : Point)] := fun a ha => hwork.mem_iff.mp ha
  have hmtr : ∀ a ∈ [⟨4, 0, 0⟩, ⟨0, 3, 0⟩, (⟨1, 1, 0⟩ : Point)],
      ∀ b ∈ [⟨4, 0, 0⟩, ⟨0, 3, 0⟩, (⟨1, 1, 0⟩ : Point)],
      ∀ c ∈ [⟨4, 0, 0⟩, ⟨0, 3, 0⟩, (⟨1, 1, 0⟩ : Point)],
      polarLt ⟨0, 0, 0⟩ b a = false → polarLt ⟨0, 0, 0⟩ c b = false →
      polarLt ⟨0, 0, 0⟩ c a = false := by decide
  have hman : ∀ a ∈ [⟨4, 0, 0⟩, ⟨0, 3, 0⟩, (⟨1, 1, 0⟩ : Point)],
      ∀ b ∈ [⟨4, 0, 0⟩, ⟨0, 3, 0⟩, (⟨1, 1, 0⟩ : Point)],
      polarLt ⟨0, 0, 0⟩ b a = false → polarLt ⟨0, 0, 0⟩ a b = false → a = b := by decide
  have hsorted : ∀ ss : List Nat,
      isort (polarLt ⟨0, 0, 0⟩)
        (chunkedSort (polarLt ⟨0, 0, 0⟩) ss (pivotSplit S.points).2) =
      [⟨4, 0, 0⟩, ⟨1, 1, 0⟩, ⟨0, 3, 0⟩] := by
    intro ss
    have hcm : ∀ a ∈ chunkedSort (polarLt ⟨0, 0, 0⟩) ss (pivotSplit S.points).2,
        a ∈ [⟨4, 0, 0⟩, ⟨0, 3, 0⟩, (⟨1, 1, 0⟩ : Point)] := fun a ha =>
      hwmem a ((chunkedSort_perm _ _ _).mem_iff.mp ha)
    have him : ∀ a ∈ isort (polarLt ⟨0, 0, 0⟩)
        (chunkedSort (polarLt ⟨0, 0, 0⟩) ss (pivotSplit S.points).2),
        a ∈ [⟨4, 0, 0⟩, ⟨0, 3, 0⟩, (⟨1, 1, 0⟩ : Point)] := fun a ha =>
      hcm a ((isort_perm _ _).mem_iff.mp ha)
    refine sorted_unique (polarLt ⟨0, 0, 0⟩) _ _ ?_ ?_ ?_ ?_
    · refine (((isort_perm _ _).trans (chunkedSort_perm _ _ _)).trans hwork).trans ?_
      decide
    · exact isort_pairwise _ (polarLt_asymm _) _
        (fun u hu v hv w hw => hmtr u (hcm u hu) v (hcm v hv) w (hcm w hw))
    · decide
    · exact fun u hu v hv => hman u (him u hu) v (him v hv)
  refine ⟨?_, ?_, ?_⟩
  · rw [cch_body S T (by omega), hpiv, hsorted]
    show (if S.points.length = 2 then
        some (PointSet.mk [⟨0, 0, 0⟩, ⟨4, 0, 0⟩] S.is_3d)
      else some (PointSet.mk
        ((sweep [⟨1, 1, 0⟩, ⟨4, 0, 0⟩, ⟨0, 0, 0⟩] [⟨0, 3, 0⟩]).reverse) S.is_3d)) =
      some (PointSet.mk [⟨0, 0, 0⟩, ⟨4, 0, 0⟩, ⟨0, 3, 0⟩] S.is_3d)
    rw [if_neg (by omega)]
    have hsweep : (sweep [⟨1, 1, 0⟩, ⟨4, 0, 0⟩, ⟨0, 0, 0⟩] [⟨0, 3, 0⟩]).reverse =
        [⟨0, 0, 0⟩, ⟨4, 0, 0⟩, (⟨0, 3, 0⟩ : Point)] := by decide
    rw [hsweep]
  · rw [compute_area_flag _ S.is_3d false]
    decide
  · rw [compute_path_length_flag _ S.is_3d false]
    unfold compute_path_length
    rw [if_neg (by norm_num)]
    have hcp : cyclicPairs [⟨0, 0, 0⟩, ⟨4, 0, 0⟩, (⟨0, 3, 0⟩ : Point)] =
        [(⟨0, 0, 0⟩, ⟨4, 0, 0⟩), (⟨4, 0, 0⟩, ⟨0, 3, 0⟩), (⟨0, 3, 0⟩, ⟨0, 0, 0⟩)] := rfl
    show ((cyclicPairs [⟨0, 0, 0⟩, ⟨4, 0, 0⟩, (⟨0, 3, 0⟩ : Point)]).map
      (fun pq => compute_distance pq.1 pq.2)).sum = 12
    rw [hcp]
    simp only [List.map_cons, List.map_nil, List.sum_cons, List.sum_nil]
    unfold compute_distance
    have hd1 : dist2 ⟨0, 0, 0⟩ ⟨4, 0, 0⟩ = 16 := by norm_num [dist2]
    have hd2 : dist2 ⟨4, 0, 0⟩ ⟨0, 3, 0⟩ = 25 := by norm_num [dist2]
    have hd3 : dist2 ⟨0, 3, 0⟩ ⟨0, 0, 0⟩ = 9 := by norm_num [dist2]
    rw [hd1, hd2, hd3]
    have h16 : Real.sqrt ((16 : ℚ) : ℝ) = 4 := by
      rw [show ((16 : ℚ) : ℝ) = 4 ^ 2 by norm_num, Real.sqrt_sq (by norm_num : (0:ℝ) ≤ 4)]
    have h25 : Real.sqrt ((25 : ℚ) : ℝ) = 5 := by
      rw [show ((25 : ℚ) : ℝ) = 5 ^ 2 by norm_num, Real.sqrt_sq (by norm_num : (0:ℝ) ≤ 5)]
    have h9 : Real.sqrt ((9 : ℚ) : ℝ) = 3 := by
      rw [show ((9 : ℚ) : ℝ) = 3 ^ 2 by norm_num, Real.sqrt_sq (by norm_num : (0:ℝ) ≤ 3)]
    rw [h16, h25, h9]
    norm_num

unseal Rat.mul Rat.sub Rat.add Rat.inv in
/-- Witness for C2 at a concrete input order and thread count. -/
theorem C2_witness :
    compute_convex_hull ⟨[⟨1, 1, 0⟩, ⟨0, 3, 0⟩, ⟨4, 0, 0⟩, ⟨0, 0, 0⟩], false⟩ 2 =
      some ⟨[⟨0, 0, 0⟩, ⟨4, 0, 0⟩, ⟨0, 3, 0⟩], false⟩ ∧
    compute_area ⟨[⟨0, 0, 0⟩, ⟨4, 0, 0⟩, ⟨0, 3, 0⟩], false⟩ = 6 ∧
    compute_path_length ⟨[⟨0, 0, 0⟩, ⟨4, 0, 0⟩, ⟨0, 3, 0⟩], false⟩ = 12 :=
  C2_concrete_scenario ⟨[⟨1, 1, 0⟩, ⟨0, 3, 0⟩, ⟨4, 0, 0⟩, ⟨0, 0, 0⟩], false⟩ 2
    (by decide) (by decide)

/-! ### C1: three non-collinear points -/

theorem cross_perm1 (a b c : Point) : cross_product b a c = -cross_product a b c := by
  unfold cross_product; ring

theorem cross_perm2 (a b c : Point) : cross_product c b a = -cross_product a b c := by
  unfold cross_product; ring

theorem perm_pair {α : Type} (l : List α) (u v : α) (h : l.Perm [u, v]) :
    l = [u, v] ∨ l = [v, u] := by
  have hlen : l.length = 2 := by simpa using h.length_eq
  match l, hlen, h with
  | [x, y], _, h =>
    have hx : x = u ∨ x = v := by
      have hm := h.mem_iff.mp (show x ∈ [x, y] by simp)
      simpa using hm
    rcases hx with hx | hx
    · rw [hx] at h
      have h2 : y = v := by simpa using List.perm_singleton.mp h.cons_inv
      left
      rw [hx, h2]
    · rw [hx] at h
      have h1 : ([v, y] : List α).Perm [v, u] := h.trans (List.Perm.swap v u [])
      have h2 : y = u := by simpa using List.perm_singleton.mp h1.cons_inv
      right
      rw [hx, h2]

theorem cross_ne_of_not_eps {piv u v : Point}
    (hnc : ¬ |cross_product piv u v| < EPSILON) : cross_product piv u v ≠ 0 := by
  intro h0
  rw [h0] at hnc
  rw [abs_zero] at hnc
  exact hnc (by norm_num [EPSILON])

theorem sort_pair (piv u v : Point) (hnc : ¬ |cross_product piv u v| < EPSILON)
    (ss : List Nat) :
    isort (polarLt piv) (chunkedSort (polarLt piv) ss [u, v]) =
      if 0 < cross_product piv u v then [u, v] else [v, u] := by
  have hlt : polarLt piv u v = decide (0 < cross_product piv u v) := polarLt_ncoll hnc
  have hnc' : ¬ |cross_product piv v u| < EPSILON := by rwa [abs_cross_swap]
  have hlt' : polarLt piv v u = decide (0 < cross_product piv v u) := polarLt_ncoll hnc'
  have hne : cross_product piv u v ≠ 0 := cross_ne_of_not_eps hnc
  rcases perm_pair _ u v (chunkedSort_perm (polarLt piv) ss [u, v]) with hc | hc <;> rw [hc]
  · show (if polarLt piv u v = true then [u, v] else [v, u]) = _
    rw [hlt]
    by_cases hpos : 0 < cross_product piv u v
    · simp [hpos]
    · simp [hpos]
  · show (if polarLt piv v u = true then [v, u] else [u, v]) = _
    rw [hlt']
    by_cases hpos : 0 < cross_product piv u v
    · have hvu : ¬ 0 < cross_product piv v u := by
        rw [cross_product_swap]
        linarith
      simp [hvu, hpos]
    · have hvu : 0 < cross_product piv v u := by
        rw [cross_product_swap]
        rcases lt_trichotomy (cross_product piv u v) 0 with h | h | h
        · linarith
        · exact absurd h hne
        · exact absurd h hpos
      simp [hvu, hpos]

theorem not_better_min {s p : Point} (h : ¬ better s p) :
    p.y ≤ s.y ∧ (s.y = p.y → p.x ≤ s.x) := by
  unfold better at h
  push_neg at h
  exact ⟨h.1, fun he => h.2 he⟩

theorem C1_finish (a b c piv u v : Point) (d : Bool) (T : Int)
    (hsplit : pivotSplit [a, b, c] = (piv, [u, v]))
    (hperm3 : ([piv, u, v] : List Point).Perm [a, b, c])
    (hpermswap : ([piv, v, u] : List Point).Perm [a, b, c])
    (hnc2 : ¬ |cross_product piv u v| < EPSILON)
    (hmin : ∀ s ∈ [a, b, c], ¬ better s piv) :
    ∃ p q r : Point,
      compute_convex_hull ⟨[a, b, c], d⟩ T = some ⟨[p, q, r], d⟩ ∧
      ([p, q, r] : List Point).Perm [a, b, c] ∧
      0 < cross_product p q r ∧
      ∀ s ∈ [a, b, c], p.y ≤ s.y ∧ (s.y = p.y → p.x ≤ s.x) := by
  have hpiv1 : (pivotSplit (PointSet.mk [a, b, c] d).points).1 = piv :=
    congrArg Prod.fst hsplit
  have hpiv2 : (pivotSplit (PointSet.mk [a, b, c] d).points).2 = [u, v] :=
    congrArg Prod.snd hsplit
  have hmin' : ∀ s ∈ [a, b, c], piv.y ≤ s.y ∧ (s.y = piv.y → piv.x ≤ s.x) :=
    fun s hs => not_better_min (hmin s hs)
  have hbody := cch_body (PointSet.mk [a, b, c] d) T (by simp)
  rw [hpiv1, hpiv2] at hbody
  rw [sort_pair piv u v hnc2] at hbody
  by_cases hpos : 0 < cross_product piv u v
  · rw [if_pos hpos] at hbody
    refine ⟨piv, u, v, ?_, hperm3, hpos, hmin'⟩
    rw [hbody]
    rfl
  · rw [if_neg hpos] at hbody
    have hvu : 0 < cross_product piv v u := by
      rw [cross_product_swap]
      rcases lt_trichotomy (cross_product piv u v) 0 with h | h | h
      · linarith
      · exact absurd h (cross_ne_of_not_eps hnc2)
      · exact absurd h hpos
    refine ⟨piv, v, u, ?_, hpermswap, hvu, hmin'⟩
    rw [hbody]
    rfl

/-- C1: for any 3 points that are not collinear (in the sense of the code's
epsilon test `is_collinear`), the hull consists of exactly those 3 points,
in counter-clockwise order, starting at the point with the lowest
y-coordinate (ties broken by lowest x-coordinate). -/
theorem C1_three_noncollinear (a b c : Point) (d : Bool) (T : Int)
    (hnc : is_collinear a b c = false) :
    ∃ p q r : Point,
      compute_convex_hull ⟨[a, b, c], d⟩ T = some ⟨[p, q, r], d⟩ ∧
      ([p, q, r] : List Point).Perm [a, b, c] ∧
      0 < cross_product p q r ∧
      ∀ s ∈ [a, b, c], p.y ≤ s.y ∧ (s.y = p.y → p.x ≤ s.x) := by
  have hncQ : ¬ |cross_product a b c| < EPSILON := by
    intro h
    rw [show is_collinear a b c = true by simp [is_collinear, h]] at hnc
    cases hnc
  by_cases hb : better b a
  · by_cases hcb : better c b
    · -- pivot c, working array [b, a]
      have hsel : pivotSel a [b, c] = (2, c) := by
        show (if better b a then pivotAux (1, b) 2 [c] else pivotAux (0, a) 2 [c]) = (2, c)
        rw [if_pos hb]
        show (if better c b then pivotAux (2, c) 3 [] else pivotAux (1, b) 3 []) = (2, c)
        rw [if_pos hcb]
        rfl
      have hsplit : pivotSplit [a, b, c] = (c, [b, a]) := by
        simp only [pivotSplit]
        rw [hsel]
        rfl
      have hnc2 : ¬ |cross_product c b a| < EPSILON := by
        rw [show cross_product c b a = -cross_product a b c from cross_perm2 a b c, abs_neg]
        exact hncQ
      refine C1_finish a b c c b a d T hsplit ?_ ?_ hnc2 ?_
      · exact (List.reverse_perm [a, b, c] :
          ([c, b, a] : List Point).Perm [a, b, c])
      · exact ((List.Perm.swap a c [b]).trans ((List.Perm.swap b c []).cons a) :
          ([c, a, b] : List Point).Perm [a, b, c])
      · intro s hs
        rcases List.mem_cons.mp hs with he | hs
        · rw [he]; exact better_asymm (better_trans hcb hb)
        rcases List.mem_cons.mp hs with he | hs
        · rw [he]; exact better_asymm hcb
        rcases List.mem_cons.mp hs with he | hs
        · rw [he]; exact better_irrefl c
        · simp at hs
    · -- pivot b, working array [a, c]
      have hsel : pivotSel a [b, c] = (1, b) := by
        show (if better b a then pivotAux (1, b) 2 [c] else pivotAux (0, a) 2 [c]) = (1, b)
        rw [if_pos hb]
        show (if better c b then pivotAux (2, c) 3 [] else pivotAux (1, b) 3 []) = (1, b)
        rw [if_neg hcb]
        rfl
      have hsplit : pivotSplit [a, b, c] = (b, [a, c]) := by
        simp only [pivotSplit]
        rw [hsel]
        rfl
      have hnc2 : ¬ |cross_product b a c| < EPSILON := by
        rw [show cross_product b a c = -cross_product a b c from cross_perm1 a b c, abs_neg]
        exact hncQ
      refine C1_finish a b c b a c d T hsplit ?_ ?_ hnc2 ?_
      · exact (List.Perm.swap a b [c] : ([b, a, c] : List Point).Perm [a, b, c])
      · exact (((List.Perm.swap a c []).cons b).trans (List.Perm.swap a b [c]) :
          ([b, c, a] : List Point).Perm [a, b, c])
      · intro s hs
        rcases List.mem_cons.mp hs with he | hs
        · rw [he]; exact better_asymm hb
        rcases List.mem_cons.mp hs with he | hs
        · rw [he]; exact better_irrefl b
        rcases List.mem_cons.mp hs with he | hs
        · rw [he]; exact hcb
        · simp at hs
  · by_cases hca : better c a
    · -- pivot c, working array [b, a]
      have hsel : pivotSel a [b, c] = (2, c) := by
        show (if better b a then pivotAux (1, b) 2 [c] else pivotAux (0, a) 2 [c]) = (2, c)
        rw [if_neg hb]
        show (if better c a then pivotAux (2, c) 3 [] else pivotAux (0, a) 3 []) = (2, c)
        rw [if_pos hca]
        rfl
      have hsplit : pivotSplit [a, b, c] = (c, [b, a]) := by
        simp only [pivotSplit]
        rw [hsel]
        rfl
      have hnc2 : ¬ |cross_product c b a| < EPSILON := by
        rw [show cross_product c b a = -cross_product a b c from cross_perm2 a b c, abs_neg]
        exact hncQ
      refine C1_finish a b c c b a d T hsplit ?_ ?_ hnc2 ?_
      · exact (List.reverse_perm [a, b, c] :
          ([c, b, a] : List Point).Perm [a, b, c])
      · exact ((List.Perm.swap a c [b]).trans ((List.Perm.swap b c []).cons a) :
          ([c, a, b] : List Point).Perm [a, b, c])
      · intro s hs
        rcases List.mem_cons.mp hs with he | hs
        · rw [he]; exact better_asymm hca
        rcases List.mem_cons.mp hs with he | hs
        · rw [he]
          intro hbc
          exact hb (better_trans hbc hca)
        rcases List.mem_cons.mp hs with he | hs
        · rw [he]; exact better_irrefl c
        · simp at hs
    · -- pivot a, working array [b, c]
      have hsel : pivotSel a [b, c] = (0, a) := by
        show (if better b a then pivotAux (1, b) 2 [c] else pivotAux (0, a) 2 [c]) = (0, a)
        rw [if_neg hb]
        show (if better c a then pivotAux (2, c) 3 [] else pivotAux (0, a) 3 []) = (0, a)
        rw [if_neg hca]
        rfl
      have hsplit : pivotSplit [a, b, c] = (a, [b, c]) := by
        simp only [pivotSplit]
        rw [hsel]
        rfl
      refine C1_finish a b c a b c d T hsplit (List.Perm.refl _) ?_ hncQ ?_
      · exact ((List.Perm.swap b c []).cons a :
          ([a, c, b] : List Point).Perm [a, b, c])
      · intro s hs
        rcases List.mem_cons.mp hs with he | hs
        · rw [he]; exact better_irrefl a
        rcases List.mem_cons.mp hs with he | hs
        · rw [he]; exact hb
        rcases List.mem_cons.mp hs with he | hs
        · rw [he]; exact hca
        · simp at hs

unseal Rat.mul Rat.sub Rat.add Rat.inv in
/-- Witness for C1 at the concrete triangle {(0,0),(1,0),(0,1)}. -/
theorem C1_witness :
    ∃ p q r : Point,
      compute_convex_hull ⟨[⟨0, 0, 0⟩, ⟨1, 0, 0⟩, ⟨0, 1, 0⟩], false⟩ 1 =
        some ⟨[p, q, r], false⟩ ∧
      ([p, q, r] : List Point).Perm [⟨0, 0, 0⟩, ⟨1, 0, 0⟩, ⟨0, 1, 0⟩] ∧
      0 < cross_product p q r ∧
      ∀ s ∈ [⟨0, 0, 0⟩, ⟨1, 0, 0⟩, (⟨0, 1, 0⟩ : Point)],
        p.y ≤ s.y ∧ (s.y = p.y → p.x ≤ s.x) :=
  C1_three_noncollinear ⟨0, 0, 0⟩ ⟨1, 0, 0⟩ ⟨0, 1, 0⟩ false 1 (by decide)

/-! ### C8: dependence on the z coordinate -/

/-- Two points agreeing in the x-y plane. -/
def RXY (p q : Point) : Prop := p.x = q.x ∧ p.y = q.y

theorem cross_congr {o o' a a' b b' : Point} (ho : RXY o o') (ha : RXY a a')
    (hb : RXY b b') : cross_product o a b = cross_product o' a' b' := by
  unfold cross_product
  rw [ho.1, ho.2, ha.1, ha.2, hb.1, hb.2]

theorem better_congr {q q' p p' : Point} (hq : RXY q q') (hp : RXY p p') :
    better q p ↔ better q' p' := by
  unfold better
  rw [hq.1, hq.2, hp.1, hp.2]

theorem epsNC_symm (piv : Point) :
    Symmetric fun p q => EPSILON ≤ |cross_product piv p q| := by
  intro p q h
  rwa [abs_cross_swap]

theorem polarLt_congr {piv piv' a a' b b' : Point}
    (hnc : EPSILON ≤ |cross_product piv a b|)
    (hp : RXY piv piv') (ha : RXY a a') (hb : RXY b b') :
    polarLt piv a b = polarLt piv' a' b' := by
  have hx : cross_product piv a b = cross_product piv' a' b' := cross_congr hp ha hb
  rw [polarLt_ncoll (not_lt.mpr hnc), polarLt_ncoll (by rw [← hx]; exact not_lt.mpr hnc), hx]

theorem pivotAux_congr {l l' : List Point} (h : List.Forall₂ RXY l l') :
    ∀ (bi i : Nat) (bp bp' : Point), RXY bp bp' →
      (pivotAux (bi, bp) i l).1 = (pivotAux (bi, bp') i l').1 ∧
      RXY (pivotAux (bi, bp) i l).2 (pivotAux (bi, bp') i l').2 := by
  induction h with
  | nil => exact fun bi i bp bp' hbp => ⟨rfl, hbp⟩
  | @cons q q' m m' hq hm ih =>
    intro bi i bp bp' hbp
    by_cases hqb : better q bp
    · have hqb' : better q' bp' := (better_congr hq hbp).mp hqb
      have e1 : pivotAux (bi, bp) i (q :: m) = pivotAux (i, q) (i + 1) m := by
        show (if better q bp then pivotAux (i, q) (i + 1) m
          else pivotAux (bi, bp) (i + 1) m) = _
        rw [if_pos hqb]
      have e2 : pivotAux (bi, bp') i (q' :: m') = pivotAux (i, q') (i + 1) m' := by
        show (if better q' bp' then pivotAux (i, q') (i + 1) m'
          else pivotAux (bi, bp') (i + 1) m') = _
        rw [if_pos hqb']
      rw [e1, e2]
      exact ih i (i + 1) q q' hq
    · have hqb' : ¬ better q' bp' := fun hc => hqb ((better_congr hq hbp).mpr hc)
      have e1 : pivotAux (bi, bp) i (q :: m) = pivotAux (bi, bp) (i + 1) m := by
        show (if better q bp then pivotAux (i, q) (i + 1) m
          else pivotAux (bi, bp) (i + 1) m) = _
        rw [if_neg hqb]
      have e2 : pivotAux (bi, bp') i (q' :: m') = pivotAux (bi, bp') (i + 1) m' := by
        show (if better q' bp' then pivotAux (i, q') (i + 1) m'
          else pivotAux (bi, bp') (i + 1) m') = _
        rw [if_neg hqb']
      rw [e1, e2]
      exact ih bi (i + 1) bp bp' hbp

theorem getD_congr {l l' : List Point} (h : List.Forall₂ RXY l l') :
    ∀ (i : Nat) (d d' : Point), RXY d d' → RXY (l.getD i d) (l'.getD i d') := by
  induction h with
  | nil => exact fun i d d' hd => hd
  | @cons q q' m m' hq hm ih =>
    intro i d d' hd
    cases i with
    | zero => exact hq
    | succ i' => exact ih i' d d' hd

theorem set_congr {l l' : List Point} (h : List.Forall₂ RXY l l') :
    ∀ (i : Nat) (p p' : Point), RXY p p' →
      List.Forall₂ RXY (l.set i p) (l'.set i p') := by
  induction h with
  | nil => exact fun i p p' _ => List.Forall₂.nil
  | @cons q q' m m' hq hm ih =>
    intro i p p' hp
    cases i with
    | zero => exact List.Forall₂.cons hp hm
    | succ i' => exact List.Forall₂.cons hq (ih i' p p' hp)

theorem swapFront_congr {l l' : List Point} (h : List.Forall₂ RXY l l') (i : Nat) :
    List.Forall₂ RXY (swapFront l i) (swapFront l' i) := by
  cases h with
  | nil => exact List.Forall₂.nil
  | @cons q q' m m' hq hm =>
    show List.Forall₂ RXY
      (if i = 0 then q :: m else m.getD (i - 1) q :: m.set (i - 1) q)
      (if i = 0 then q' :: m' else m'.getD (i - 1) q' :: m'.set (i - 1) q')
    by_cases hi : i = 0
    · rw [if_pos hi, if_pos hi]
      exact List.Forall₂.cons hq hm
    · rw [if_neg hi, if_neg hi]
      exact List.Forall₂.cons (getD_congr hm (i - 1) q q' hq) (set_congr hm (i - 1) q q' hq)

theorem pivotSplit_congr {l l' : List Point} (h : List.Forall₂ RXY l l') :
    RXY (pivotSplit l).1 (pivotSplit l').1 ∧
    List.Forall₂ RXY (pivotSplit l).2 (pivotSplit l').2 := by
  cases h with
  | nil => exact ⟨⟨rfl, rfl⟩, List.Forall₂.nil⟩
  | @cons p p' rest rest' hp hrest =>
    have hidx : (pivotSel p rest).1 = (pivotSel p' rest').1 :=
      (pivotAux_congr hrest 0 1 p p' hp).1
    have hsw : List.Forall₂ RXY (swapFront (p :: rest) (pivotSel p rest).1)
        (swapFront (p' :: rest') (pivotSel p' rest').1) := by
      rw [hidx]
      exact swapFront_congr (List.Forall₂.cons hp hrest) _
    simp only [pivotSplit]
    revert hsw
    generalize swapFront (p :: rest) (pivotSel p rest).1 = w
    generalize swapFront (p' :: rest') (pivotSel p' rest').1 = w'
    intro hsw
    cases hsw with
    | nil => exact ⟨hp, List.Forall₂.nil⟩
    | cons h1 h2 => exact ⟨h1, h2⟩

theorem insertP_congr {piv piv' : Point} (hp : RXY piv piv') :
    ∀ {l l' : List Point}, List.Forall₂ RXY l l' →
      ∀ (x x' : Point), RXY x x' →
        (x :: l).Pairwise (fun p q => EPSILON ≤ |cross_product piv p q|) →
        List.Forall₂ RXY (insertP (polarLt piv) x l) (insertP (polarLt piv') x' l') := by
  intro l l' h
  induction h with
  | nil => exact fun x x' hx _ => List.Forall₂.cons hx List.Forall₂.nil
  | @cons y y' m m' hy hm ih =>
    intro x x' hx hep
    rw [List.pairwise_cons] at hep
    have hxy : EPSILON ≤ |cross_product piv x y| := hep.1 y (by simp)
    have hcmp : polarLt piv x y = polarLt piv' x' y' := polarLt_congr hxy hp hx hy
    show List.Forall₂ RXY
      (if polarLt piv x y then x :: y :: m else y :: insertP (polarLt piv) x m)
      (if polarLt piv' x' y' then x' :: y' :: m' else y' :: insertP (polarLt piv') x' m')
    by_cases hlt : polarLt piv x y = true
    · rw [if_pos hlt, if_pos (hcmp ▸ hlt)]
      exact List.Forall₂.cons hx (List.Forall₂.cons hy hm)
    · rw [if_neg hlt, if_neg (hcmp ▸ hlt)]
      refine List.Forall₂.cons hy (ih x x' hx ?_)
      refine List.Pairwise.sublist ?_ (List.pairwise_cons.mpr hep)
      exact List.Sublist.cons₂ x (List.sublist_cons_self y m)

theorem isort_congr {piv piv' : Point} (hp : RXY piv piv') :
    ∀ {l l' : List Point}, List.Forall₂ RXY l l' →
      l.Pairwise (fun p q => EPSILON ≤ |cross_product piv p q|) →
      List.Forall₂ RXY (isort (polarLt piv) l) (isort (polarLt piv') l') := by
  intro l l' h
  induction h with
  | nil => exact fun _ => List.Forall₂.nil
  | @cons q q' m m' hq hm ih =>
    intro hep
    rw [List.pairwise_cons] at hep
    show List.Forall₂ RXY (insertP (polarLt piv) q (isort (polarLt piv) m))
      (insertP (polarLt piv') q' (isort (polarLt piv') m'))
    refine insertP_congr hp (ih hep.2) q q' hq ?_
    have hperm : (q :: isort (polarLt piv) m).Perm (q :: m) :=
      (isort_perm (polarLt piv) m).cons q
    exact ((hperm.pairwise_iff fun hxy => epsNC_symm piv hxy).mpr
      (List.pairwise_cons.mpr hep))

theorem chunkedSort_congr {piv piv' : Point} (hp : RXY piv piv') :
    ∀ (ss : List Nat) {l l' : List Point}, List.Forall₂ RXY l l' →
      l.Pairwise (fun p q => EPSILON ≤ |cross_product piv p q|) →
      List.Forall₂ RXY (chunkedSort (polarLt piv) ss l) (chunkedSort (polarLt piv') ss l')
  | [], l, l', h, _ => h
  | s :: ss, l, l', h, hep => by
    show List.Forall₂ RXY
      (isort (polarLt piv) (l.take s) ++ chunkedSort (polarLt piv) ss (l.drop s))
      (isort (polarLt piv') (l'.take s) ++ chunkedSort (polarLt piv') ss (l'.drop s))
    refine List.rel_append ?_ ?_
    · exact isort_congr hp (List.forall₂_take s h)
        (List.Pairwise.sublist (List.take_sublist s l) hep)
    · exact chunkedSort_congr hp ss (List.forall₂_drop s h)
        (List.Pairwise.sublist (List.drop_sublist s l) hep)

theorem popWhile_congr {p p' : Point} (hp : RXY p p') :
    ∀ (s s' : List Point), List.Forall₂ RXY s s' →
      List.Forall₂ RXY (popWhile p s) (popWhile p' s')
  | [], s', h => by
    cases h
    exact List.Forall₂.nil
  | [a], s', h => by
    rcases h with _ | ⟨ha, h2⟩
    cases h2
    exact List.Forall₂.cons ha List.Forall₂.nil
  | a :: b :: r, s', h => by
    rcases h with _ | ⟨ha, h2⟩
    rename_i a' s₂
    rcases h2 with _ | ⟨hb, h3⟩
    rename_i b' r'
    have hcr : cross_product b a p = cross_product b' a' p' := cross_congr hb ha hp
    show List.Forall₂ RXY
      (if cross_product b a p ≤ 0 then popWhile p (b :: r) else a :: b :: r)
      (if cross_product b' a' p' ≤ 0 then popWhile p' (b' :: r') else a' :: b' :: r')
    by_cases hc : cross_product b a p ≤ 0
    · rw [if_pos hc, if_pos (hcr ▸ hc)]
      exact popWhile_congr hp (b :: r) (b' :: r') (List.Forall₂.cons hb h3)
    · rw [if_neg hc, if_neg (hcr ▸ hc)]
      exact List.Forall₂.cons ha (List.Forall₂.cons hb h3)

theorem sweep_congr :
    ∀ {ps ps' : List Point}, List.Forall₂ RXY ps ps' →
      ∀ {s s' : List Point}, List.Forall₂ RXY s s' →
        List.Forall₂ RXY (sweep s ps) (sweep s' ps') := by
  intro ps ps' h
  induction h with
  | nil => exact fun hs => hs
  | @cons p p' m m' hpp hm ih =>
    intro s s' hs
    show List.Forall₂ RXY (sweep (p :: popWhile p s) m) (sweep (p' :: popWhile p' s') m')
    exact ih (List.Forall₂.cons hpp (popWhile_congr hpp s s' hs))

theorem zip_shoelace_congr :
    ∀ {l₁ l₁' : List Point}, List.Forall₂ RXY l₁ l₁' →
      ∀ {l₂ l₂' : List Point}, List.Forall₂ RXY l₂ l₂' →
        ((l₁.zip l₂).map fun pq => pq.1.x * pq.2.y - pq.2.x * pq.1.y) =
        ((l₁'.zip l₂').map fun pq => pq.1.x * pq.2.y - pq.2.x * pq.1.y) := by
  intro l₁ l₁' h
  induction h with
  | nil => intro l₂ l₂' _; rfl
  | @cons a a' m m' ha hm ih =>
    intro l₂ l₂' h2
    cases h2 with
    | nil => rfl
    | @cons b b' n n' hb hn =>
      show (a.x * b.y - b.x * a.y) :: _ = (a'.x * b'.y - b'.x * a'.y) :: _
      rw [ha.1, ha.2, hb.1, hb.2]
      congr 1
      exact ih hn

theorem compute_area_congr {hA hB : PointSet}
    (hF : List.Forall₂ RXY hA.points hB.points) :
    compute_area hA = compute_area hB := by
  unfold compute_area
  rw [← hF.length_eq]
  by_cases hl : hA.points.length < 3
  · rw [if_pos hl, if_pos hl]
  · rw [if_neg hl, if_neg hl]
    unfold cyclicPairs
    have hrot : List.Forall₂ RXY (hA.points.drop 1 ++ hA.points.take 1)
        (hB.points.drop 1 ++ hB.points.take 1) :=
      List.rel_append (List.forall₂_drop 1 hF) (List.forall₂_take 1 hF)
    rw [zip_shoelace_congr hF hrot]

/-- C8 amended: hull construction and area depend only on the x-y
coordinates provided no two points of the sorted working range are
ε-collinear with the pivot (the polar comparator's collinear tie-break
compares 3-D distances, which involve z); under that hypothesis two inputs
agreeing pointwise in x and y yield hulls with the same x-y vertices in the
same order, and the same area.  `compute_path_length` is excluded: it sums
3-D distances and genuinely depends on z. -/
theorem C8_amended (A B : PointSet) (T : Int)
    (hF : List.Forall₂ RXY A.points B.points)
    (hNC : (pivotSplit A.points).2.Pairwise
      (fun p q => EPSILON ≤ |cross_product (pivotSplit A.points).1 p q|))
    (h3 : 3 ≤ A.points.length) :
    ∃ hA hB : PointSet,
      compute_convex_hull A T = some hA ∧ compute_convex_hull B T = some hB ∧
      List.Forall₂ RXY hA.points hB.points ∧ compute_area hA = compute_area hB := by
  have h3' : 3 ≤ B.points.length := by rw [← hF.length_eq]; exact h3
  rcases cch_spec A T h3 with ⟨p1, p2, tl, hsA, heqA, _⟩
  rcases cch_spec B T h3' with ⟨q1, q2, tl', hsB, heqB, _⟩
  obtain ⟨hpivR, hworkF⟩ := pivotSplit_congr hF
  have hlenw : (pivotSplit A.points).2.length = (pivotSplit B.points).2.length :=
    hworkF.length_eq
  have hchunkP : (chunkedSort (polarLt (pivotSplit A.points).1)
      (chunkSizes (pivotSplit A.points).2.length (max T 1).toNat)
      (pivotSplit A.points).2).Pairwise
      (fun p q => EPSILON ≤ |cross_product (pivotSplit A.points).1 p q|) :=
    ((chunkedSort_perm _ _ _).pairwise_iff
      (fun hxy => epsNC_symm _ hxy)).mpr hNC
  have hsorted : List.Forall₂ RXY
      (isort (polarLt (pivotSplit A.points).1)
        (chunkedSort (polarLt (pivotSplit A.points).1)
          (chunkSizes (pivotSplit A.points).2.length (max T 1).toNat)
          (pivotSplit A.points).2))
      (isort (polarLt (pivotSplit B.points).1)
        (chunkedSort (polarLt (pivotSplit B.points).1)
          (chunkSizes (pivotSplit B.points).2.length (max T 1).toNat)
          (pivotSplit B.points).2)) := by
    rw [← hlenw]
    exact isort_congr hpivR (chunkedSort_congr hpivR _ hworkF hNC) hchunkP
  rw [hsA, hsB] at hsorted
  rcases hsorted with _ | ⟨h1, hsorted⟩
  rcases hsorted with _ | ⟨h2, htl⟩
  have hsw : List.Forall₂ RXY
      (sweep [p2, p1, (pivotSplit A.points).1] tl)
      (sweep [q2, q1, (pivotSplit B.points).1] tl') :=
    sweep_congr htl
      (List.Forall₂.cons h2 (List.Forall₂.cons h1
        (List.Forall₂.cons hpivR List.Forall₂.nil)))
  exact ⟨_, _, heqA, heqB, List.rel_reverse hsw,
    compute_area_congr (List.rel_reverse hsw)⟩

unseal Rat.mul Rat.sub Rat.add Rat.inv in
/-- C8 counterexample.  The inputs A = {(0,0,0),(1,0,0),(2,0,0),(1,1,0)},
B = A with z = 10 on (1,0), and C = A with z = 5 on (1,1) agree pointwise in
x and y.  Yet the hulls of A and B differ even in their x-y vertices — the
polar sort's distance tie-break reads z, reordering the pivot-collinear
points (1,0) and (2,0) — and the perimeters of the hulls of A and C differ,
because `compute_path_length` uses full 3-D distances. -/
theorem C8_counterexample :
    List.Forall₂ RXY
      [⟨0, 0, 0⟩, ⟨1, 0, 0⟩, ⟨2, 0, 0⟩, (⟨1, 1, 0⟩ : Point)]
      [⟨0, 0, 0⟩, ⟨1, 0, 10⟩, ⟨2, 0, 0⟩, (⟨1, 1, 0⟩ : Point)] ∧
    compute_convex_hull ⟨[⟨0, 0, 0⟩, ⟨1, 0, 0⟩, ⟨2, 0, 0⟩, ⟨1, 1, 0⟩], false⟩ 1 =
      some ⟨[⟨0, 0, 0⟩, ⟨1, 0, 0⟩, ⟨2, 0, 0⟩, ⟨1, 1, 0⟩], false⟩ ∧
    compute_convex_hull ⟨[⟨0, 0, 0⟩, ⟨1, 0, 10⟩, ⟨2, 0, 0⟩, ⟨1, 1, 0⟩], false⟩ 1 =
      some ⟨[⟨0, 0, 0⟩, ⟨2, 0, 0⟩, ⟨1, 1, 0⟩], false⟩ ∧
    ¬ List.Forall₂ RXY
      [⟨0, 0, 0⟩, ⟨1, 0, 0⟩, ⟨2, 0, 0⟩, (⟨1, 1, 0⟩ : Point)]
      [⟨0, 0, 0⟩, ⟨2, 0, 0⟩, (⟨1, 1, 0⟩ : Point)] ∧
    List.Forall₂ RXY
      [⟨0, 0, 0⟩, ⟨1, 0, 0⟩, ⟨2, 0, 0⟩, (⟨1, 1, 0⟩ : Point)]
      [⟨0, 0, 0⟩, ⟨1, 0, 0⟩, ⟨2, 0, 0⟩, (⟨1, 1, 5⟩ : Point)] ∧
    compute_convex_hull ⟨[⟨0, 0, 0⟩, ⟨1, 0, 0⟩, ⟨2, 0, 0⟩, ⟨1, 1, 5⟩], false⟩ 1 =
      some ⟨[⟨0, 0, 0⟩, ⟨1, 0, 0⟩, ⟨2, 0, 0⟩, ⟨1, 1, 5⟩], false⟩ ∧
    compute_path_length ⟨[⟨0, 0, 0⟩, ⟨1, 0, 0⟩, ⟨2, 0, 0⟩, ⟨1, 1, 0⟩], false⟩ ≠
      compute_path_length ⟨[⟨0, 0, 0⟩, ⟨1, 0, 0⟩, ⟨2, 0, 0⟩, ⟨1, 1, 5⟩], false⟩ := by
  refine ⟨?_, by decide, by decide, ?_, ?_, by decide, ?_⟩
  · exact List.Forall₂.cons ⟨rfl, rfl⟩ (List.Forall₂.cons ⟨rfl, rfl⟩
      (List.Forall₂.cons ⟨rfl, rfl⟩ (List.Forall₂.cons ⟨rfl, rfl⟩ List.Forall₂.nil)))
  · intro hcon
    simpa using hcon.length_eq
  · exact List.Forall₂.cons ⟨rfl, rfl⟩ (List.Forall₂.cons ⟨rfl, rfl⟩
      (List.Forall₂.cons ⟨rfl, rfl⟩ (List.Forall₂.cons ⟨rfl, rfl⟩ List.Forall₂.nil)))
  · have h2lt : Real.sqrt 2 < Real.sqrt 27 :=
      Real.sqrt_lt_sqrt (by norm_num) (by norm_num)
    have hA : compute_path_length
        ⟨[⟨0, 0, 0⟩, ⟨1, 0, 0⟩, ⟨2, 0, 0⟩, ⟨1, 1, 0⟩], false⟩ =
        2 + 2 * Real.sqrt 2 := by
      unfold compute_path_length
      rw [if_neg (by norm_num)]
      rw [show cyclicPairs [⟨0, 0, 0⟩, ⟨1, 0, 0⟩, ⟨2, 0, 0⟩, (⟨1, 1, 0⟩ : Point)] =
        [(⟨0, 0, 0⟩, ⟨1, 0, 0⟩), (⟨1, 0, 0⟩, ⟨2, 0, 0⟩),
         (⟨2, 0, 0⟩, ⟨1, 1, 0⟩), (⟨1, 1, 0⟩, ⟨0, 0, 0⟩)] from rfl]
      simp only [List.map_cons, List.map_nil, List.sum_cons, List.sum_nil]
      unfold compute_distance
      rw [show dist2 ⟨0, 0, 0⟩ ⟨1, 0, 0⟩ = 1 from by norm_num [dist2]]
      rw [show dist2 ⟨1, 0, 0⟩ ⟨2, 0, 0⟩ = 1 from by norm_num [dist2]]
      rw [show dist2 ⟨2, 0, 0⟩ ⟨1, 1, 0⟩ = 2 from by norm_num [dist2]]
      rw [show dist2 ⟨1, 1, 0⟩ ⟨0, 0, 0⟩ = 2 from by norm_num [dist2]]
      rw [show ((1 : ℚ) : ℝ) = 1 by norm_num, show ((2 : ℚ) : ℝ) = 2 by norm_num]
      rw [Real.sqrt_one]
      ring
    have hC : compute_path_length
        ⟨[⟨0, 0, 0⟩, ⟨1, 0, 0⟩, ⟨2, 0, 0⟩, ⟨1, 1, 5⟩], false⟩ =
        2 + 2 * Real.sqrt 27 := by
      unfold compute_path_length
      rw [if_neg (by norm_num)]
      rw [show cyclicPairs [⟨0, 0, 0⟩, ⟨1, 0, 0⟩, ⟨2, 0, 0⟩, (⟨1, 1, 5⟩ : Point)] =
        [(⟨0, 0, 0⟩, ⟨1, 0, 0⟩), (⟨1, 0, 0⟩, ⟨2, 0, 0⟩),
         (⟨2, 0, 0⟩, ⟨1, 1, 5⟩), (⟨1, 1, 5⟩, ⟨0, 0, 0⟩)] from rfl]
      simp only [List.map_cons, List.map_nil, List.sum_cons, List.sum_nil]
      unfold compute_distance
      rw [show dist2 ⟨0, 0, 0⟩ ⟨1, 0, 0⟩ = 1 from by norm_num [dist2]]
      rw [show dist2 ⟨1, 0, 0⟩ ⟨2, 0, 0⟩ = 1 from by norm_num [dist2]]
      rw [show dist2 ⟨2, 0, 0⟩ ⟨1, 1, 5⟩ = 27 from by norm_num [dist2]]
      rw [show dist2 ⟨1, 1, 5⟩ ⟨0, 0, 0⟩ = 27 from by norm_num [dist2]]
      rw [show ((1 : ℚ) : ℝ) = 1 by norm_num, show ((27 : ℚ) : ℝ) = 27 by norm_num]
      rw [Real.sqrt_one]
      ring
    rw [hA, hC]
    intro heq
    linarith

unseal Rat.mul Rat.sub Rat.add Rat.inv in
/-- Witness for the amended C8 at concrete inputs differing only in z. -/
theorem C8_amended_witness :
    ∃ hA hB : PointSet,
      compute_convex_hull ⟨[⟨0, 0, 0⟩, ⟨4, 0, 0⟩, ⟨0, 3, 0⟩, ⟨1, 1, 0⟩], false⟩ 1 =
        some hA ∧
      compute_convex_hull ⟨[⟨0, 0, 0⟩, ⟨4, 0, 0⟩, ⟨0, 3, 7⟩, ⟨1, 1, 2⟩], true⟩ 1 =
        some hB ∧
      List.Forall₂ RXY hA.points hB.points ∧ compute_area hA = compute_area hB :=
  C8_amended ⟨[⟨0, 0, 0⟩, ⟨4, 0, 0⟩, ⟨0, 3, 0⟩, ⟨1, 1, 0⟩], false⟩
    ⟨[⟨0, 0, 0⟩, ⟨4, 0, 0⟩, ⟨0, 3, 7⟩, ⟨1, 1, 2⟩], true⟩ 1
    (List.Forall₂.cons ⟨rfl, rfl⟩ (List.Forall₂.cons ⟨rfl, rfl⟩
      (List.Forall₂.cons ⟨rfl, rfl⟩ (List.Forall₂.cons ⟨rfl, rfl⟩ List.Forall₂.nil))))
    (by decide) (by decide)

/-! ### C7: the area and perimeter sentinels -/

/-- C7: `compute_area` returns the sentinel -1 exactly on hulls with fewer
than 3 points, and `compute_path_length` returns it exactly on hulls with
fewer than 2 points; with enough points the results are nonnegative, hence
never the sentinel. -/
theorem C7_sentinels :
    (∀ hull : PointSet, hull.points.length < 3 → compute_area hull = -1) ∧
    (∀ hull : PointSet, 3 ≤ hull.points.length → compute_area hull ≠ -1) ∧
    (∀ hull : PointSet, hull.points.length < 2 → compute_path_length hull = -1) ∧
    (∀ hull : PointSet, 2 ≤ hull.points.length → compute_path_length hull ≠ -1) := by
  refine ⟨?_, ?_, ?_, ?_⟩
  · intro hull h
    unfold compute_area
    rw [if_pos h]
  · intro hull h
    unfold compute_area
    rw [if_neg (by omega)]
    have hnn : (0 : ℚ) ≤
        |((cyclicPairs hull.points).map
          (fun pq => pq.1.x * pq.2.y - pq.2.x * pq.1.y)).sum| / 2 := by
      positivity
    intro heq
    rw [heq] at hnn
    norm_num at hnn
  · intro hull h
    unfold compute_path_length
    rw [if_pos h]
  · intro hull h
    unfold compute_path_length
    rw [if_neg (by omega)]
    have hnn : (0 : ℝ) ≤
        ((cyclicPairs hull.points).map (fun pq => compute_distance pq.1 pq.2)).sum := by
      apply List.sum_nonneg
      intro r hr
      rcases List.mem_map.mp hr with ⟨pq, _, hpq⟩
      rw [← hpq]
      exact Real.sqrt_nonneg _
    intro heq
    rw [heq] at hnn
    norm_num at hnn

/-- Witness for C7 at concrete inputs. -/
theorem C7_witness :
    compute_area ⟨[⟨0, 0, 0⟩, ⟨1, 0, 0⟩], false⟩ = -1 ∧
    compute_area ⟨[⟨0, 0, 0⟩, ⟨4, 0, 0⟩, ⟨0, 3, 0⟩], false⟩ ≠ -1 ∧
    compute_path_length ⟨[⟨0, 0, 0⟩], false⟩ = -1 ∧
    compute_path_length ⟨[⟨0, 0, 0⟩, ⟨4, 0, 0⟩, ⟨0, 3, 0⟩], false⟩ ≠ -1 :=
  ⟨C7_sentinels.1 _ (by decide), C7_sentinels.2.1 _ (by decide),
   C7_sentinels.2.2.1 _ (by decide), C7_sentinels.2.2.2 _ (by decide)⟩

end InfraGeoCalc
